import Mathlib

/-!
Shallow embedding of the kpng endpoints client (src/pkg/client/client.go):
the ordered store fed by the streamed diff protocol, the receive loop of
NextCh, the grouping traversal, the retry machinery of dial/postError, and
the Next/NextCh cancellation paths.  Theorems below settle the spec claims
against these definitions.
-/

namespace Client

/-- Modelled from the spec: the btree item type kv (declared outside
client.go, only used there) orders store entries by their Path; per the
spec, "Path — an opaque, totally-ordered byte/string key ... ordering is
lexical".  Paths are byte/char sequences with lexicographic order. -/
abbrev Path := List Char

/-- Decoded service payload (opaque to this client; localnetv1.Service). -/
abbrev Svc := Nat

/-- Decoded endpoint payload (opaque to this client; localnetv1.Endpoint). -/
abbrev Ep := Nat

/-- Value stored under a path: the tagged union decoded from Set payloads
(a *localnetv1.Service or a *localnetv1.Endpoint). -/
inductive Value
  | service (s : Svc)
  | endpoint (e : Ep)
deriving DecidableEq, Repr

/-- Discriminant of a Set operation (set.Ref.Set in the source): the
ServicesSet and EndpointsSet cases are decoded, every other value is
ignored by the default branch of the switch. -/
inductive SetKind
  | servicesSet
  | endpointsSet
  | unknown (k : Nat)
deriving DecidableEq, Repr

/-- Payload of a Set operation: kind (set.Ref.Set), path (set.Ref.Path)
and the raw bytes to decode (set.Bytes). -/
structure SetOp where
  kind : SetKind
  path : Path
  bytes : List Nat
deriving DecidableEq, Repr

/-- One operation received from the watch stream (localnetv1.OpItem).
nilOp stands for an OpItem whose Op field is absent or of a type matched
by no case of the switch in NextCh (which has no default branch). -/
inductive Op
  | set (o : SetOp)
  | delete (path : Path)
  | sync
  | nilOp
deriving DecidableEq, Repr

/-- The decode step for Set payloads (proto.Unmarshal into a Service or an
Endpoint value; an external collaborator, kept abstract): none models a
decode error. -/
structure Decoders where
  service : List Nat → Option Svc
  endpoint : List Nat → Option Ep

/-- The ordered store (epc.data, a btree of kv items): a list of
path/value entries kept in ascending path order. -/
abbrev Store := List (Path × Value)

/-- ServiceEndpoints as in the source: one Service plus the Endpoints
grouped under it. -/
structure ServiceEndpoints where
  Service : Svc
  Endpoints : List Ep
deriving DecidableEq, Repr

/-- btree ReplaceOrInsert on the sorted entry list: replace the entry with
an equal path, otherwise insert at the ordered position. -/
def upsert (p : Path) (v : Value) : Store → Store
  | [] => [(p, v)]
  | (q, w) :: rest =>
    if p < q then (p, v) :: (q, w) :: rest
    else if p = q then (p, v) :: rest
    else (q, w) :: upsert p v rest

/-- btree Delete on the entry list: remove the entry with an equal path if
present, otherwise leave the store unchanged. -/
def erase (p : Path) : Store → Store
  | [] => []
  | (q, w) :: rest =>
    if p = q then rest
    else (q, w) :: erase p rest

/-- One iteration body of the receive loop of NextCh for a non-Sync
operation: Set decodes per kind (unknown kinds skip without decoding,
decode failures are dropped) then upserts; Delete erases; nilOp matches no
case of the switch and falls through. -/
def applyStep (d : Decoders) (st : Store) : Op → Store
  | .set o =>
    match o.kind with
    | .servicesSet =>
      match d.service o.bytes with
      | none => st
      | some s => upsert o.path (.service s) st
    | .endpointsSet =>
      match d.endpoint o.bytes with
      | none => st
      | some e => upsert o.path (.endpoint e) st
    | .unknown _ => st
  | .delete p => erase p st
  | .sync => st
  | .nilOp => st

/-- The receive loop of NextCh over the operations of one round: apply
each received operation in order and stop at the first Sync (an exhausted
script stands for a stream that sends nothing further). -/
def recvLoop (d : Decoders) (st : Store) : List Op → Store
  | [] => st
  | .sync :: _ => st
  | op :: rest => recvLoop d (applyStep d st op) rest

/-- The grouping traversal launched by NextCh after Sync (epc.data.Ascend
with the current aggregate seps, initially nil): a Service flushes the
current aggregate and starts a new one; an Endpoint is appended to the
current aggregate, which in the source dereferences seps without a nil
check.  Returns the aggregates sent to the channel, paired with true when
the traversal hit that nil dereference (a runtime panic). -/
def ascendEmit : Store → Option ServiceEndpoints → List ServiceEndpoints × Bool
  | [], seps => (seps.toList, false)
  | (_, .service s) :: rest, seps =>
    let r := ascendEmit rest (some ⟨s, []⟩)
    (seps.toList ++ r.1, r.2)
  | (_, .endpoint e) :: rest, seps =>
    match seps with
    | none => ([], true)
    | some g => ascendEmit rest (some ⟨g.Service, g.Endpoints ++ [e]⟩)

/-- Aggregates emitted by the grouping goroutine, with the panic flag. -/
def groupEmit (st : Store) : List ServiceEndpoints × Bool :=
  ascendEmit st none

/-- The aggregate list of one round as observed through the closed
channel: some list when the traversal completes and closes the channel,
none when it panics on a nil current aggregate. -/
def group (st : Store) : Option (List ServiceEndpoints) :=
  let r := groupEmit st
  if r.2 then none else some r.1

/-- Service entries of the store in store order. -/
def serviceEntries (st : Store) : List (Path × Svc) :=
  st.filterMap fun pv =>
    match pv.2 with
    | .service s => some (pv.1, s)
    | .endpoint _ => none

/-- Endpoint entries of the store in store order. -/
def endpointEntries (st : Store) : List (Path × Ep) :=
  st.filterMap fun pv =>
    match pv.2 with
    | .service _ => none
    | .endpoint e => some (pv.1, e)

/-- Whether path r lies strictly between p and the (optional) bound q. -/
def withinB (p : Path) (q : Option Path) (r : Path) : Bool :=
  decide (p < r) &&
    match q with
    | none => true
    | some qq => decide (r < qq)

/-- Endpoint values whose path sorts strictly between p and q, in list
order. -/
def endpointsBetween (eps : List (Path × Ep)) (p : Path) (q : Option Path) :
    List Ep :=
  (eps.filter fun re => withinB p q re.1).map Prod.snd

/-- Modelled from the spec for the refinement claim: one aggregate per
service entry, holding every endpoint entry whose path sorts strictly
between that service's path and the next service's path. -/
def specGroupAux (eps : List (Path × Ep)) : List (Path × Svc) → List ServiceEndpoints
  | [] => []
  | (p, s) :: svcs =>
    ⟨s, endpointsBetween eps p (svcs.head?.map Prod.fst)⟩ :: specGroupAux eps svcs

/-- Modelled from the spec for the refinement claim: "for each surviving
Service entry ..., an aggregate of that service plus every surviving
Endpoint entry whose path sorts strictly between that service's path and
the next surviving service's path, in ascending path order". -/
def specGroup (st : Store) : List ServiceEndpoints :=
  specGroupAux (endpointEntries st) (serviceEntries st)

/-- Whether every endpoint entry of the store is strictly preceded, in
path order, by some service entry (the schema invariant the spec states
for well-formed streams). -/
def noOrphan (st : Store) : Bool :=
  (endpointEntries st).all fun pe =>
    (serviceEntries st).any fun ps => decide (ps.1 < pe.1)

/-- Ascending strict path order of the store entries: the invariant the
btree maintains. -/
def StoreSorted (st : Store) : Prop :=
  st.Pairwise fun a b => a.1 < b.1

/-- Reference chunking of the value column: the aggregate under
construction (service s with endpoints es so far) absorbs endpoints until
the next service flushes it. -/
def chunk (s : Svc) (es : List Ep) : List Value → List ServiceEndpoints
  | [] => [⟨s, es⟩]
  | .endpoint e :: rest => chunk s (es ++ [e]) rest
  | .service t :: rest => ⟨s, es⟩ :: chunk t [] rest

/-- Decoders used for concrete scenarios: a payload is its decoded value
as a singleton byte list, so an empty payload fails to decode. -/
def natDecoders : Decoders :=
  ⟨List.head?, List.head?⟩

/-- Scenario A of the spec: a service then two of its endpoints, then
Sync.  S decodes to 10, E1 to 1 and E2 to 2 under natDecoders. -/
def scenarioA : List Op :=
  [ .set ⟨.servicesSet, "ns/svc".toList, [10]⟩,
    .set ⟨.endpointsSet, "ns/svc/ep1".toList, [1]⟩,
    .set ⟨.endpointsSet, "ns/svc/ep2".toList, [2]⟩,
    .sync ]

/-- Scenario B of the spec: an endpoint with no preceding service, then
Sync. -/
def scenarioB : List Op :=
  [ .set ⟨.endpointsSet, "ns/svc/ep1".toList, [1]⟩, .sync ]

/-- One failed attempt of a round inside NextCh: either watch.Send(req)
fails, or some operations are received and applied before watch.Recv
fails. -/
inductive Attempt
  | sendErr
  | recvErr (got : List Op)
deriving DecidableEq, Repr

/-- Store state reached by a failed attempt just before postError runs:
a send failure leaves the store untouched, a receive failure leaves the
operations received so far applied. -/
def attemptStore (d : Decoders) (st : Store) : Attempt → Store
  | .sendErr => st
  | .recvErr got => recvLoop d st got

/-- dial() on success runs epc.data = btree.New(2): whatever store the
client held is discarded and a fresh empty store installed. -/
def resetStore (_old : Store) : Store := []

/-- The retry structure of NextCh (the goto retry loop) for a run whose
failed attempts all reconnect successfully: each failed attempt applies
its partial operations, then postError tears down and dial installs a
fresh empty store, and the same request req is sent again; the last send
succeeds and the round's operations run to Sync.  Returns the final store
and the requests sent, in order. -/
def runRetries (d : Decoders) (req : Nat) :
    Store → List Attempt → List Op → Store × List Nat
  | st, [], final => (recvLoop d st final, [req])
  | st, a :: as, final =>
    let r := runRetries d req (resetStore (attemptStore d st a)) as final
    (r.1, req :: r.2)

/-- What NextCh returns together with what its round did: the aggregates
emitted on the (buffered, then closed) channel, whether the grouping
goroutine panicked before closing it, the canceled flag, and the watch
requests sent. -/
structure NextChOut where
  queue : List ServiceEndpoints
  crashed : Bool
  canceled : Bool
  sent : List Nat
deriving DecidableEq, Repr

/-- NextCh: when the execution scope is already canceled at the retry
checkpoint, close the channel and return canceled without sending;
otherwise run the round (with its internal retries) and launch the
grouping traversal over the final store. -/
def nextCh (d : Decoders) (req : Nat) (ctxCanceled : Bool) (st : Store)
    (fails : List Attempt) (final : List Op) : NextChOut :=
  if ctxCanceled then ⟨[], false, true, []⟩
  else
    let r := runRetries d req st fails final
    let g := groupEmit r.1
    ⟨g.1, g.2, false, r.2⟩

/-- Next: call NextCh; when canceled return a nil list and canceled=true,
otherwise drain the channel into a list.  none models a call that never
returns because the grouping goroutine panicked and the channel is never
closed. -/
def next (d : Decoders) (req : Nat) (ctxCanceled : Bool) (st : Store)
    (fails : List Attempt) (final : List Op) :
    Option (List ServiceEndpoints × Bool) :=
  let r := nextCh d req ctxCanceled st fails final
  if r.canceled then some ([], true)
  else if r.crashed then none
  else some (r.queue, false)

/-- Outcome of one connect attempt inside dial() when the attempt is not
cut short by the cancellation check: Dial fails, or Dial succeeds and
starting the watch stream fails, or both succeed. -/
inductive DialOutcome
  | dialFail
  | watchFail
  | ok
deriving DecidableEq, Repr

/-- Environment of one iteration of the retry loop in dial():
canceledAtCheck is ctx.Err() at the check inside Dial(); canceledAtSleep
is the cancellation state at the moment errorSleep would start (cancel is
monotone, so canceledAtCheck = true forces canceledAtSleep = true on real
runs). -/
structure DialAttemptEnv where
  canceledAtCheck : Bool
  canceledAtSleep : Bool
  outcome : DialOutcome
deriving DecidableEq, Repr

/-- Result of dial(): the canceled return value, how many ErrorDelay
sleeps ran, how many of those started while the scope was already
canceled, and whether a fresh store was installed (success). -/
structure DialResult where
  canceled : Bool
  sleeps : Nat
  sleepsWhileCanceled : Nat
  storeReset : Bool
deriving DecidableEq, Repr

/-- dial(): per iteration, Dial() first checks the context and returns
context.Canceled when canceled (dial returns true with no sleep); on a
dial failure or a watch-creation failure, errorSleep runs unconditionally
(time.Sleep, not interruptible, with no further cancellation check) and
the loop retries; on success the store is replaced by a fresh empty btree.
none when the script is exhausted before dial returns. -/
def dialGo : List DialAttemptEnv → Option DialResult
  | [] => none
  | a :: rest =>
    if a.canceledAtCheck then some ⟨true, 0, 0, false⟩
    else
      match a.outcome with
      | .ok => some ⟨false, 0, 0, true⟩
      | .dialFail =>
        (dialGo rest).map fun r =>
          ⟨r.canceled, r.sleeps + 1,
            r.sleepsWhileCanceled + (if a.canceledAtSleep then 1 else 0),
            r.storeReset⟩
      | .watchFail =>
        (dialGo rest).map fun r =>
          ⟨r.canceled, r.sleeps + 1,
            r.sleepsWhileCanceled + (if a.canceledAtSleep then 1 else 0),
            r.storeReset⟩

/-- Result of postError(): how many ErrorDelay sleeps it ran itself,
whether it went on to dial, and the dial result when it did. -/
structure PostErrorResult where
  sleeps : Nat
  redialed : Bool
  dial : Option DialResult
deriving DecidableEq, Repr

/-- postError(): close the stream and the connection, then return at once
when the context is already canceled; otherwise sleep ErrorDelay and
dial. -/
def postErrorModel (canceledNow : Bool) (script : List DialAttemptEnv) :
    PostErrorResult :=
  if canceledNow then ⟨0, false, none⟩
  else ⟨1, true, dialGo script⟩

/-- A dial script whose first attempt passes the cancellation check inside
Dial, then fails to start the watch stream at a moment when the scope has
meanwhile been canceled; the second attempt is caught by the check. -/
def c5script : List DialAttemptEnv :=
  [⟨false, true, .watchFail⟩, ⟨true, true, .dialFail⟩]

/-- Anything upsert adds beyond the old entries is the new entry. -/
theorem mem_upsert {p : Path} {v : Value} :
    ∀ {st : Store} {x : Path × Value}, x ∈ upsert p v st → x = (p, v) ∨ x ∈ st := by
  intro st
  induction st with
  | nil =>
    intro x hx
    simp [upsert] at hx
    exact Or.inl hx
  | cons hd tl ih =>
    intro x hx
    obtain ⟨q, w⟩ := hd
    simp only [upsert] at hx
    split at hx
    · rcases List.mem_cons.mp hx with h | h
      · exact Or.inl h
      · exact Or.inr h
    · split at hx
      · rcases List.mem_cons.mp hx with h | h
        · exact Or.inl h
        · exact Or.inr (List.mem_cons_of_mem _ h)
      · rcases List.mem_cons.mp hx with h | h
        · exact Or.inr (h ▸ List.mem_cons_self _ _)
        · rcases ih h with h2 | h2
          · exact Or.inl h2
          · exact Or.inr (List.mem_cons_of_mem _ h2)

/-- ReplaceOrInsert keeps the store in ascending path order. -/
theorem upsert_sorted {p : Path} {v : Value} :
    ∀ {st : Store}, StoreSorted st → StoreSorted (upsert p v st) := by
  intro st
  induction st with
  | nil =>
    intro _
    simp [upsert, StoreSorted]
  | cons hd tl ih =>
    intro h
    obtain ⟨q, w⟩ := hd
    simp only [StoreSorted, List.pairwise_cons] at h
    obtain ⟨hq, htl⟩ := h
    simp only [upsert]
    split
    next h1 =>
      refine List.pairwise_cons.mpr ⟨?_, List.pairwise_cons.mpr ⟨hq, htl⟩⟩
      intro a ha
      rcases List.mem_cons.mp ha with rfl | ha
      · exact h1
      · exact lt_trans h1 (hq a ha)
    next h1 =>
      split
      next h2 =>
        subst h2
        exact List.pairwise_cons.mpr ⟨hq, htl⟩
      next h2 =>
        have hqp : q < p := lt_of_le_of_ne (not_lt.mp h1) (Ne.symm h2)
        refine List.pairwise_cons.mpr ⟨?_, ih htl⟩
        intro a ha
        rcases mem_upsert ha with rfl | ha
        · exact hqp
        · exact hq a ha

/-- Delete only removes entries. -/
theorem erase_sublist (p : Path) : ∀ st : Store, (erase p st).Sublist st := by
  intro st
  induction st with
  | nil => simp [erase]
  | cons hd tl ih =>
    obtain ⟨q, w⟩ := hd
    simp only [erase]
    split
    · exact List.sublist_cons_self _ _
    · exact List.Sublist.cons₂ _ ih

/-- Delete keeps the store in ascending path order. -/
theorem erase_sorted {p : Path} {st : Store} (h : StoreSorted st) :
    StoreSorted (erase p st) :=
  List.Pairwise.sublist (erase_sublist p st) h

/-- Delete of an absent path leaves the store unchanged. -/
theorem erase_not_mem {p : Path} :
    ∀ {st : Store}, p ∉ st.map Prod.fst → erase p st = st := by
  intro st
  induction st with
  | nil => intro _; rfl
  | cons hd tl ih =>
    intro h
    obtain ⟨q, w⟩ := hd
    rw [List.map_cons, List.mem_cons] at h
    push_neg at h
    simp [erase, h.1, ih h.2]

/-- ReplaceOrInsert twice with the same entry equals once. -/
theorem upsert_idem (p : Path) (v : Value) :
    ∀ st : Store, upsert p v (upsert p v st) = upsert p v st := by
  intro st
  induction st with
  | nil => simp [upsert]
  | cons hd tl ih =>
    obtain ⟨q, w⟩ := hd
    by_cases h1 : p < q
    · simp [upsert, h1]
    · by_cases h2 : p = q
      · simp [upsert, h1, h2]
      · simp [upsert, h1, h2, ih]

/-- A sorted store has pairwise distinct keys. -/
theorem sorted_keys_nodup {st : Store} (h : StoreSorted st) :
    (st.map Prod.fst).Nodup :=
  List.pairwise_map.mpr (h.imp ne_of_lt)

/-- Every step of the receive loop keeps the store sorted. -/
theorem applyStep_sorted (d : Decoders) {st : Store} (h : StoreSorted st)
    (op : Op) : StoreSorted (applyStep d st op) := by
  cases op with
  | set o =>
    cases hk : o.kind with
    | servicesSet =>
      cases hs : d.service o.bytes with
      | none => simpa [applyStep, hk, hs] using h
      | some s => simpa [applyStep, hk, hs] using upsert_sorted h
    | endpointsSet =>
      cases hs : d.endpoint o.bytes with
      | none => simpa [applyStep, hk, hs] using h
      | some e => simpa [applyStep, hk, hs] using upsert_sorted h
    | unknown k => simpa [applyStep, hk] using h
  | delete p => simpa [applyStep] using erase_sorted h
  | sync => simpa [applyStep] using h
  | nilOp => simpa [applyStep] using h

/-- The receive loop keeps the store sorted. -/
theorem recvLoop_sorted (d : Decoders) :
    ∀ (ops : List Op) {st : Store}, StoreSorted st →
      StoreSorted (recvLoop d st ops) := by
  intro ops
  induction ops with
  | nil => intro st h; simpa [recvLoop] using h
  | cons op rest ih =>
    intro st h
    cases op with
    | sync => simpa [recvLoop] using h
    | set o => simpa [recvLoop] using ih (applyStep_sorted d h _)
    | delete p => simpa [recvLoop] using ih (applyStep_sorted d h _)
    | nilOp => simpa [recvLoop] using ih (applyStep_sorted d h _)

/-- Service entries of a store headed by a service entry. -/
theorem serviceEntries_cons_service (p : Path) (s : Svc) (rest : Store) :
    serviceEntries ((p, Value.service s) :: rest) = (p, s) :: serviceEntries rest := by
  simp [serviceEntries, List.filterMap_cons]

/-- Service entries ignore an endpoint head. -/
theorem serviceEntries_cons_endpoint (p : Path) (e : Ep) (rest : Store) :
    serviceEntries ((p, Value.endpoint e) :: rest) = serviceEntries rest := by
  simp [serviceEntries, List.filterMap_cons]

/-- Endpoint entries ignore a service head. -/
theorem endpointEntries_cons_service (p : Path) (s : Svc) (rest : Store) :
    endpointEntries ((p, Value.service s) :: rest) = endpointEntries rest := by
  simp [endpointEntries, List.filterMap_cons]

/-- Endpoint entries of a store headed by an endpoint entry. -/
theorem endpointEntries_cons_endpoint (p : Path) (e : Ep) (rest : Store) :
    endpointEntries ((p, Value.endpoint e) :: rest) = (p, e) :: endpointEntries rest := by
  simp [endpointEntries, List.filterMap_cons]

/-- A service entry comes from a service value stored at that path. -/
theorem mem_serviceEntries {st : Store} {q : Path} {t : Svc}
    (h : (q, t) ∈ serviceEntries st) : (q, Value.service t) ∈ st := by
  rw [serviceEntries, List.mem_filterMap] at h
  obtain ⟨⟨a, v⟩, ha, hv⟩ := h
  cases v with
  | service s =>
    simp only [Option.some.injEq, Prod.mk.injEq] at hv
    obtain ⟨rfl, rfl⟩ := hv
    exact ha
  | endpoint e => simp at hv

/-- An endpoint entry comes from an endpoint value stored at that path. -/
theorem mem_endpointEntries {st : Store} {r : Path} {e : Ep}
    (h : (r, e) ∈ endpointEntries st) : (r, Value.endpoint e) ∈ st := by
  rw [endpointEntries, List.mem_filterMap] at h
  obtain ⟨⟨a, v⟩, ha, hv⟩ := h
  cases v with
  | service s => simp at hv
  | endpoint e2 =>
    simp only [Option.some.injEq, Prod.mk.injEq] at hv
    obtain ⟨rfl, rfl⟩ := hv
    exact ha

/-- A head endpoint entry inside the bounds is collected. -/
theorem endpointsBetween_cons_true {r : Path} {e : Ep} {eps : List (Path × Ep)}
    {p : Path} {q : Option Path} (h : withinB p q r = true) :
    endpointsBetween ((r, e) :: eps) p q = e :: endpointsBetween eps p q := by
  simp [endpointsBetween, List.filter_cons, h]

/-- A head endpoint entry outside the bounds is skipped. -/
theorem endpointsBetween_cons_false {r : Path} {e : Ep} {eps : List (Path × Ep)}
    {p : Path} {q : Option Path} (h : withinB p q r = false) :
    endpointsBetween ((r, e) :: eps) p q = endpointsBetween eps p q := by
  simp [endpointsBetween, List.filter_cons, h]

/-- No endpoint entry inside the bounds: nothing is collected. -/
theorem endpointsBetween_eq_nil {eps : List (Path × Ep)} {p : Path}
    {q : Option Path} (h : ∀ x ∈ eps, withinB p q x.1 = false) :
    endpointsBetween eps p q = [] := by
  rw [endpointsBetween, List.filter_eq_nil_iff.mpr ?_, List.map_nil]
  intro a ha
  rw [h a ha]
  simp

/-- The collected endpoints only depend on the bounds through the filter
outcome. -/
theorem endpointsBetween_congr {eps : List (Path × Ep)} {p p2 : Path}
    {q : Option Path} (h : ∀ x ∈ eps, withinB p q x.1 = withinB p2 q x.1) :
    endpointsBetween eps p q = endpointsBetween eps p2 q := by
  rw [endpointsBetween, endpointsBetween, List.filter_congr h]

/-- An endpoint entry below every service path is collected by no
aggregate of the spec grouping. -/
theorem specGroupAux_skip {r : Path} {e : Ep} {eps : List (Path × Ep)} :
    ∀ {svcs : List (Path × Svc)}, (∀ x ∈ svcs, ¬ x.1 < r) →
      specGroupAux ((r, e) :: eps) svcs = specGroupAux eps svcs := by
  intro svcs
  induction svcs with
  | nil => intro _; rfl
  | cons hd tl ih =>
    intro h
    obtain ⟨q, t⟩ := hd
    have h1 : withinB q (tl.head?.map Prod.fst) r = false := by
      have hqr : ¬ q < r := h (q, t) (List.mem_cons_self _ _)
      simp [withinB, decide_eq_false hqr]
    simp only [specGroupAux]
    rw [endpointsBetween_cons_false h1,
      ih fun x hx => h x (List.mem_cons_of_mem _ hx)]

/-- Once a current aggregate exists, the traversal never panics and emits
exactly the chunking of the value column. -/
theorem ascendEmit_some : ∀ (st : Store) (s : Svc) (es : List Ep),
    ascendEmit st (some ⟨s, es⟩) = (chunk s es (st.map Prod.snd), false) := by
  intro st
  induction st with
  | nil => intro s es; rfl
  | cons hd tl ih =>
    intro s es
    obtain ⟨r, v⟩ := hd
    cases v with
    | service t => simp [ascendEmit, chunk, ih t []]
    | endpoint e => simpa [ascendEmit, chunk] using ih s (es ++ [e])

/-- Chunking a sorted store below a pending service aggregate equals the
spec grouping of that store, with the pending aggregate collecting the
leading endpoints. -/
theorem chunk_eq_specGroupAux :
    ∀ (rest : Store) (p : Path) (s : Svc) (es : List Ep),
      StoreSorted ((p, Value.service s) :: rest) →
      chunk s es (rest.map Prod.snd) =
        ⟨s, es ++ endpointsBetween (endpointEntries rest) p
            ((serviceEntries rest).head?.map Prod.fst)⟩ ::
          specGroupAux (endpointEntries rest) (serviceEntries rest) := by
  intro rest
  induction rest with
  | nil =>
    intro p s es h
    simp [chunk, endpointEntries, serviceEntries, endpointsBetween, specGroupAux]
  | cons hd tl ih =>
    intro p s es h
    obtain ⟨r, v⟩ := hd
    have hps := List.pairwise_cons.mp h
    have hpr : p < r := hps.1 (r, v) (List.mem_cons_self _ _)
    have htl : StoreSorted ((r, v) :: tl) := hps.2
    have hts := List.pairwise_cons.mp htl
    have hrtl : ∀ x ∈ tl, r < x.1 := hts.1
    cases v with
    | endpoint e =>
      have hsort2 : StoreSorted ((r, Value.service s) :: tl) :=
        List.pairwise_cons.mpr ⟨hrtl, hts.2⟩
      have hin : withinB p ((serviceEntries tl).head?.map Prod.fst) r = true := by
        cases hq : (serviceEntries tl).head? with
        | none => simp [withinB, decide_eq_true hpr, hq]
        | some qt =>
          obtain ⟨q, t⟩ := qt
          have hmem : (q, t) ∈ serviceEntries tl :=
            List.mem_of_mem_head? (Option.mem_def.mpr hq)
          have hrq : r < q := hrtl _ (mem_serviceEntries hmem)
          simp [withinB, decide_eq_true hpr, hq, decide_eq_true hrq]
      have hcongr : endpointsBetween (endpointEntries tl) p
          ((serviceEntries tl).head?.map Prod.fst) =
          endpointsBetween (endpointEntries tl) r
          ((serviceEntries tl).head?.map Prod.fst) := by
        refine endpointsBetween_congr fun x hx => ?_
        have hrx : r < x.1 :=
          hrtl _ (mem_endpointEntries (r := x.1) (e := x.2) (by simpa using hx))
        have hpx : p < x.1 := lt_trans hpr hrx
        simp [withinB, decide_eq_true hrx, decide_eq_true hpx]
      have hskip : specGroupAux ((r, e) :: endpointEntries tl) (serviceEntries tl) =
          specGroupAux (endpointEntries tl) (serviceEntries tl) := by
        refine specGroupAux_skip fun x hx => ?_
        exact lt_asymm (hrtl _ (mem_serviceEntries (q := x.1) (t := x.2) (by simpa using hx)))
      rw [List.map_cons]
      simp only [chunk]
      rw [ih r s (es ++ [e]) hsort2, endpointEntries_cons_endpoint,
        serviceEntries_cons_endpoint, endpointsBetween_cons_true hin, hskip, hcongr]
      simp
    | service s2 =>
      have hnil : endpointsBetween (endpointEntries tl) p (some r) = [] := by
        refine endpointsBetween_eq_nil fun x hx => ?_
        have hrx : r < x.1 :=
          hrtl _ (mem_endpointEntries (r := x.1) (e := x.2) (by simpa using hx))
        simp [withinB, decide_eq_false (lt_asymm hrx)]
      rw [List.map_cons]
      simp only [chunk]
      rw [ih r s2 [] htl, endpointEntries_cons_service, serviceEntries_cons_service]
      simp only [specGroupAux, List.head?_cons, Option.map_some', List.nil_append]
      rw [hnil]
      simp

/-- On a sorted store without orphan endpoints, the emitted aggregates are
exactly the spec grouping. -/
theorem group_eq_specGroup : ∀ {st : Store}, StoreSorted st → noOrphan st = true →
    group st = some (specGroup st) := by
  intro st hs ho
  cases st with
  | nil => rfl
  | cons hd rest =>
    obtain ⟨p, v⟩ := hd
    cases v with
    | service s =>
      have ha := ascendEmit_some rest s []
      have hc := chunk_eq_specGroupAux rest p s [] hs
      have hout : group ((p, Value.service s) :: rest) =
          some (chunk s [] (rest.map Prod.snd)) := by
        simp [group, groupEmit, ascendEmit, ha]
      rw [hout, hc, specGroup, serviceEntries_cons_service,
        endpointEntries_cons_service]
      simp [specGroupAux]
    | endpoint e =>
      exfalso
      rw [noOrphan, List.all_eq_true] at ho
      have hpe : (p, e) ∈ endpointEntries ((p, Value.endpoint e) :: rest) := by
        rw [endpointEntries_cons_endpoint]
        exact List.mem_cons_self _ _
      have hany := ho _ hpe
      rw [List.any_eq_true] at hany
      obtain ⟨⟨q, t⟩, hq, hlt⟩ := hany
      have hlt2 : q < p := of_decide_eq_true hlt
      rw [serviceEntries_cons_endpoint] at hq
      have hmem : (q, Value.service t) ∈ rest := mem_serviceEntries hq
      exact lt_asymm ((List.pairwise_cons.mp hs).1 _ hmem) hlt2

/-- NextCh with the scope not canceled: the channel carries the grouping
of the final store and the requests of every attempt were sent. -/
theorem nextCh_not_canceled (d : Decoders) (req : Nat) (st : Store)
    (fails : List Attempt) (final : List Op) :
    nextCh d req false st fails final =
      ⟨(groupEmit (runRetries d req st fails final).1).1,
        (groupEmit (runRetries d req st fails final).1).2, false,
        (runRetries d req st fails final).2⟩ := rfl

/-- Next with the scope not canceled, written through the grouping of the
final store. -/
theorem next_not_canceled (d : Decoders) (req : Nat) (st : Store)
    (fails : List Attempt) (final : List Op) :
    next d req false st fails final =
      (if (groupEmit (runRetries d req st fails final).1).2 then none
        else some ((groupEmit (runRetries d req st fails final).1).1, false)) := rfl

/-- C1: the claim says that an endpoint visited with no current aggregate
is dropped without any error or crash and that Scenario B emits the empty
aggregate list.  Evaluating the code at that input shows the opposite:
after Set(Endpoint, ns/svc/ep1, E1) and Sync the store holds the lone
endpoint, and the grouping traversal dereferences the nil current
aggregate (seps.Endpoints with seps = nil), i.e. it panics, emitting
nothing and never closing the channel, instead of emitting []. -/
theorem c1_orphan_endpoint_crashes :
    recvLoop natDecoders [] scenarioB = [("ns/svc/ep1".toList, Value.endpoint 1)] ∧
    groupEmit (recvLoop natDecoders [] scenarioB) = ([], true) ∧
    group (recvLoop natDecoders [] scenarioB) = none :=
  ⟨by decide, by decide, by decide⟩

/-- C2 counterexample: for the applied sequence Set(Endpoint, ns/svc/ep1,
E1); Sync, the emitted aggregates are not the spec grouping of the
surviving store: the traversal panics (group = none) while the spec
grouping is the empty list. -/
theorem c2_counterexample :
    group (recvLoop natDecoders [] scenarioB) ≠
      some (specGroup (recvLoop natDecoders [] scenarioB)) ∧
    group (recvLoop natDecoders [] scenarioB) = none ∧
    specGroup (recvLoop natDecoders [] scenarioB) = [] :=
  ⟨by decide, by decide, by decide⟩

/-- C2 (amended): for every ordered sequence of applied Set/Delete
operations ending in Sync whose surviving store has every endpoint entry
strictly preceded in path order by some service entry, the emitted
aggregate list is exactly the spec grouping: one aggregate per surviving
service holding that service plus every surviving endpoint whose path
sorts strictly between that service's path and the next service's path,
aggregates and endpoints in ascending path order; in particular Scenario
A emits [(S, [E1, E2])]. -/
theorem c2_grouping_correct (d : Decoders) (ops : List Op)
    (h : noOrphan (recvLoop d [] ops) = true) :
    group (recvLoop d [] ops) = some (specGroup (recvLoop d [] ops)) ∧
    group (recvLoop natDecoders [] scenarioA) = some [⟨10, [1, 2]⟩] :=
  ⟨group_eq_specGroup (recvLoop_sorted d ops List.Pairwise.nil) h, by decide⟩

/-- C2 witness: Scenario A satisfies the no-orphan hypothesis and its
emitted aggregates equal the spec grouping. -/
theorem c2_grouping_correct_witness :
    noOrphan (recvLoop natDecoders [] scenarioA) = true ∧
    group (recvLoop natDecoders [] scenarioA) =
      some (specGroup (recvLoop natDecoders [] scenarioA)) :=
  ⟨by decide, (c2_grouping_correct natDecoders scenarioA (by decide)).1⟩

/-- C3: after any failed attempt (send or receive failure), the
in-progress store is discarded, the store is rebuilt from empty by the
successful reconnect, the same watch request is sent once per attempt,
and the final store — hence the emitted aggregates — reflects only the
operations of the last, successful round. -/
theorem c3_reconnect_restart (d : Decoders) (req : Nat) (st : Store)
    (a : Attempt) (as : List Attempt) (final : List Op) :
    runRetries d req st (a :: as) final =
      (recvLoop d [] final, List.replicate (as.length + 2) req) := by
  induction as generalizing a st with
  | nil => rfl
  | cons b bs ih =>
    have hstep : runRetries d req st (a :: b :: bs) final =
        ((runRetries d req [] (b :: bs) final).1,
          req :: (runRetries d req [] (b :: bs) final).2) := rfl
    rw [hstep, ih [] b]
    simp [List.replicate_succ]

/-- C4 counterexample: with the scope not canceled and a round whose
surviving store begins with an orphan endpoint, Next does not drain the
queue into a list and return: the grouping goroutine panics before
closing the channel, so the drain loop never terminates. -/
theorem c4_counterexample :
    (nextCh natDecoders 0 false [] [] scenarioB).canceled = false ∧
    next natDecoders 0 false [] [] scenarioB = none :=
  ⟨by decide, by decide⟩

/-- C4 (amended): when the scope is already canceled on entry, NextCh
returns a closed empty queue, canceled = true, and sends no watch
request, and Next returns an empty list with canceled = true; when not
canceled and the grouping traversal completes (does not panic), Next
drains the whole queue, in order, into the returned list. -/
theorem c4_cancel_and_drain (d : Decoders) (req : Nat) (st : Store)
    (fails : List Attempt) (final : List Op) :
    nextCh d req true st fails final = ⟨[], false, true, []⟩ ∧
    next d req true st fails final = some ([], true) ∧
    ((nextCh d req false st fails final).crashed = false →
      next d req false st fails final =
        some ((nextCh d req false st fails final).queue, false)) := by
  refine ⟨rfl, rfl, fun h => ?_⟩
  have h2 : (groupEmit (runRetries d req st fails final).1).2 = false := h
  rw [next_not_canceled, h2]
  rfl

/-- C4 witness: the cancellation fast path at Scenario A, and the drain
equation at Scenario A, whose grouping completes. -/
theorem c4_cancel_and_drain_witness :
    nextCh natDecoders 5 true [] [] scenarioA = ⟨[], false, true, []⟩ ∧
    next natDecoders 5 false [] [] scenarioA =
      some ((nextCh natDecoders 5 false [] [] scenarioA).queue, false) := by
  have h := c4_cancel_and_drain natDecoders 5 [] [] scenarioA
  exact ⟨h.1, h.2.2 (by decide)⟩

/-- C5 counterexample: a connect run whose first attempt passes the
cancellation check, then fails to create the watch stream at a moment
when the scope has already been canceled: errorSleep runs anyway (one
full, uninterrupted ErrorDelay sleep while canceled) before the next
check aborts, so the claim's "no sleep is entered and the operation
aborts immediately" fails, and the completed sleep also refutes
interruptibility. -/
theorem c5_counterexample :
    dialGo c5script = some ⟨true, 1, 1, false⟩ ∧
    (⟨true, 1, 1, false⟩ : DialResult).sleepsWhileCanceled ≠ 0 :=
  ⟨by decide, by decide⟩

/-- C5 (amended): cancellation is checked before the reconnect backoff
sleep in postError and at the start of each connect attempt inside dial;
at those checkpoints an already-canceled scope aborts the operation
immediately, with no ErrorDelay sleep and a canceled result.  The sleep
itself is a plain fixed-duration sleep that cancellation does not
interrupt, and the watch-creation failure path sleeps without rechecking
cancellation. -/
theorem c5_cancel_checkpoints (script : List DialAttemptEnv) (cs : Bool)
    (oc : DialOutcome) (rest : List DialAttemptEnv) :
    postErrorModel true script = ⟨0, false, none⟩ ∧
    dialGo (⟨true, cs, oc⟩ :: rest) = some ⟨true, 0, 0, false⟩ :=
  ⟨rfl, rfl⟩

/-- C6: processing Sync leaves the store unchanged and only terminates
the receive loop, and a round of Sync alone on a freshly emptied store
emits the empty aggregate list. -/
theorem c6_sync_frame (d : Decoders) (st : Store) (rest : List Op) :
    recvLoop d st (Op.sync :: rest) = st ∧
    applyStep d st Op.sync = st ∧
    group (recvLoop d [] [Op.sync]) = some [] :=
  ⟨rfl, rfl, rfl⟩

/-- C7: a Set with an unrecognized kind is dropped without decoding (the
result does not depend on the decoders) and the loop continues; a Set
whose payload fails to decode leaves the store unchanged and the loop
continues; a Set that decodes successfully upserts the decoded value at
the operation's path. -/
theorem c7_set_paths (d d2 : Decoders) (st : Store) (p : Path) (k : Nat)
    (o : SetOp) (rest : List Op) (bf b : List Nat) :
    applyStep d st (.set ⟨.unknown k, p, b⟩) = st ∧
    applyStep d st (.set ⟨.unknown k, p, b⟩) =
      applyStep d2 st (.set ⟨.unknown k, p, b⟩) ∧
    recvLoop d st (.set o :: rest) = recvLoop d (applyStep d st (.set o)) rest ∧
    (d.service bf = none → applyStep d st (.set ⟨.servicesSet, p, bf⟩) = st) ∧
    (d.endpoint bf = none → applyStep d st (.set ⟨.endpointsSet, p, bf⟩) = st) ∧
    (∀ s, d.service b = some s →
      applyStep d st (.set ⟨.servicesSet, p, b⟩) = upsert p (.service s) st) ∧
    (∀ e, d.endpoint b = some e →
      applyStep d st (.set ⟨.endpointsSet, p, b⟩) = upsert p (.endpoint e) st) := by
  refine ⟨rfl, rfl, rfl, fun h => ?_, fun h => ?_, fun s h => ?_, fun e h => ?_⟩
  · simp [applyStep, h]
  · simp [applyStep, h]
  · simp [applyStep, h]
  · simp [applyStep, h]

/-- C7 witness: under natDecoders an empty payload fails to decode and is
dropped, a nonempty payload decodes and is upserted. -/
theorem c7_set_paths_witness :
    applyStep natDecoders [] (.set ⟨.servicesSet, "p".toList, []⟩) = [] ∧
    applyStep natDecoders [] (.set ⟨.endpointsSet, "p".toList, []⟩) = [] ∧
    applyStep natDecoders [] (.set ⟨.servicesSet, "p".toList, [5]⟩) =
      upsert "p".toList (.service 5) [] ∧
    applyStep natDecoders [] (.set ⟨.endpointsSet, "p".toList, [5]⟩) =
      upsert "p".toList (.endpoint 5) [] := by
  obtain ⟨-, -, -, h4, h5, h6, h7⟩ :=
    c7_set_paths natDecoders natDecoders [] "p".toList 0
      ⟨.servicesSet, "p".toList, []⟩ [] [] [5]
  exact ⟨h4 rfl, h5 rfl, h6 5 rfl, h7 5 rfl⟩

/-- C8: applying the same Set twice consecutively yields the same store
as applying it once; ReplaceOrInsert replaces in place, and every store
reachable by the receive loop from empty has pairwise distinct keys. -/
theorem c8_set_idempotent (d : Decoders) (st : Store) (o : SetOp) (p : Path)
    (v : Value) (ops : List Op) :
    applyStep d (applyStep d st (.set o)) (.set o) = applyStep d st (.set o) ∧
    upsert p v (upsert p v st) = upsert p v st ∧
    ((recvLoop d [] ops).map Prod.fst).Nodup := by
  refine ⟨?_, upsert_idem p v st,
    sorted_keys_nodup (recvLoop_sorted d ops List.Pairwise.nil)⟩
  obtain ⟨k, pp, b⟩ := o
  cases k with
  | servicesSet =>
    cases hs : d.service b with
    | none => simp [applyStep, hs]
    | some s => simp [applyStep, hs, upsert_idem]
  | endpointsSet =>
    cases hs : d.endpoint b with
    | none => simp [applyStep, hs]
    | some e => simp [applyStep, hs, upsert_idem]
  | unknown k2 => rfl

/-- C9: Delete of a path not present in the store leaves the store
exactly unchanged (btree Delete of an absent item is a no-op and returns
no error). -/
theorem c9_delete_absent_noop (d : Decoders) (st : Store) (p : Path)
    (h : p ∉ st.map Prod.fst) :
    applyStep d st (.delete p) = st ∧ erase p st = st := by
  have he := erase_not_mem h
  exact ⟨he, he⟩

/-- C9 witness: deleting an absent path from a one-entry store. -/
theorem c9_delete_absent_noop_witness :
    applyStep natDecoders [("ns/svc".toList, Value.service 1)]
      (.delete "zz".toList) = [("ns/svc".toList, Value.service 1)] :=
  (c9_delete_absent_noop natDecoders _ _ (by decide)).1

/-- C10: an operation matched by no case of the type switch (absent or
unknown operation body) leaves the store unchanged, never terminates the
round, and the loop keeps receiving. -/
theorem c10_unmatched_op_skipped (d : Decoders) (st : Store) (rest : List Op) :
    applyStep d st Op.nilOp = st ∧
    recvLoop d st (Op.nilOp :: rest) = recvLoop d st rest ∧
    recvLoop d st [Op.nilOp] = st :=
  ⟨rfl, rfl, rfl⟩

end Client
